import Mathlib

set_option maxHeartbeats 1000000

/-!
Verification of `scripts/analyze_coverage.py`, a script that parses an LCOV
tracefile and prints a coverage-gap report.

Modelling conventions.

* The tracefile is a `List String` of its lines; `parse_lcov` folds the loop body
  over them.  An uncaught Python exception (a `ValueError` from `int`, or an
  `OSError` from `open`) is modelled by `Option`: `none` is abnormal termination.
* Python dictionaries are insertion-ordered association lists; `defaultdict`
  access that materialises a default entry is `modEntry`.
* Display-only real arithmetic (the coverage percentages) is modelled exactly
  over `ℚ`.  The integer-valued expression `int(total * 0.8)`, whose agreement
  with the exact floor is itself asserted by the specification, is modelled
  bit-faithfully: a binary64 value is the dyadic rational `Dy`, `round53` is
  IEEE-754 round-to-nearest, ties-to-even, at 53 significant bits (normal
  range; the values reached here are far from overflow and underflow), `c08D`
  is the exact value of the binary64 literal `0.8`, and `pyTruncD` is
  float-to-int truncation toward zero.
* The stable `list.sort` of Python is modelled by `List.insertionSort`, which is
  also stable; any two stable sorts of the same list under the same total
  preorder coincide.
-/

namespace AnalyzeCoverage

/-- Python `str.startswith`, expressed on the underlying character lists. -/
def startswith (s p : String) : Bool := p.data.isPrefixOf s.data

/-- Python `line.strip()`: remove whitespace from both ends.  (Python strips
the full Unicode whitespace class; `Char.isWhitespace` covers the blank, tab,
CR and LF characters that occur in tracefiles.) -/
def pstrip (s : String) : String :=
  ⟨((s.data.dropWhile Char.isWhitespace).reverse.dropWhile Char.isWhitespace).reverse⟩

/-- Python `s[n:]`: drop the first `n` characters. -/
def pdrop (s : String) (n : Nat) : String := ⟨s.data.drop n⟩

/-- Split a character list at every comma; the separator is consumed and empty
chunks are kept, as in Python `str.split` with an explicit separator. -/
def splitComma : List Char → List (List Char)
  | [] => [[]]
  | c :: rest =>
    let r := splitComma rest
    if c = ',' then [] :: r else (c :: r.headD []) :: r.tail

/-- Python `s.split(',')`. -/
def psplitComma (s : String) : List String := (splitComma s.data).map String.mk

/-- Python truthiness of a string: nonempty. -/
def pyTruthy (s : String) : Bool := !s.data.isEmpty

/-- Numeric value of a list of decimal digits. -/
def digitsVal (ds : List Char) : Nat := ds.foldl (fun n c => 10 * n + (c.toNat - 48)) 0

/-- Model of Python `int(s)`: optional surrounding whitespace, an optional sign,
then one or more ASCII digits; any other shape raises `ValueError`, modelled as
`none`.  (CPython additionally accepts underscore group separators and non-ASCII
decimal digits; no claim depends on those inputs and they are not modelled.) -/
def pyInt (s : String) : Option Int :=
  match (pstrip s).data with
  | '+' :: ds => if ds ≠ [] ∧ ds.all Char.isDigit then some (digitsVal ds : Int) else none
  | '-' :: ds => if ds ≠ [] ∧ ds.all Char.isDigit then some (-(digitsVal ds : Int)) else none
  | ds => if ds ≠ [] ∧ ds.all Char.isDigit then some (digitsVal ds : Int) else none

/-- One `files[path]` entry of `parse_lcov`, mirroring
`defaultdict(lambda: ... lines ..., ... total_lines ... 0, ... covered_lines ... 0)`:
per-line hit counts plus the committed aggregate counts. -/
structure FileData where
  lines : List (Int × Int)
  total_lines : Int
  covered_lines : Int
deriving DecidableEq

/-- The default entry a `defaultdict` access materialises. -/
def FileData.dflt : FileData := ⟨[], 0, 0⟩

/-- Python dict assignment `d[k] = v`: overwrite in place when the key exists,
append otherwise (insertion order is kept). -/
def updInsert {α β : Type} [DecidableEq α] (k : α) (v : β) : List (α × β) → List (α × β)
  | [] => [(k, v)]
  | (k', v') :: rest => if k' = k then (k', v) :: rest else (k', v') :: updInsert k v rest

/-- Mutation of a `defaultdict` entry `d[k]`, creating the default when absent. -/
def modEntry {α β : Type} [DecidableEq α] (dflt : β) (k : α) (f : β → β) :
    List (α × β) → List (α × β)
  | [] => [(k, f dflt)]
  | (k', v) :: rest => if k' = k then (k', f v) :: rest else (k', v) :: modEntry dflt k f rest

/-- Dictionary lookup with a default value. -/
def lookupD {α β : Type} [DecidableEq α] (dflt : β) (k : α) : List (α × β) → β
  | [] => dflt
  | (k', v) :: rest => if k' = k then v else lookupD dflt k rest

/-- The loop state of `parse_lcov`: the `files` dictionary, `current_file`
(`none` is Python `None`), the `in_lf` flag, and the last seen `lf_count` and
`lh_count` values. -/
structure ParseState where
  files : List (String × FileData)
  current_file : Option String
  in_lf : Bool
  lf_count : Int
  lh_count : Int
deriving DecidableEq

/-- State at the top of `parse_lcov`. -/
def initState : ParseState := ⟨[], none, false, 0, 0⟩

/-- The two commit assignments performed at an end-of-record marker. -/
def commitTotals (lf lh : Int) (d : FileData) : FileData :=
  { d with total_lines := lf, covered_lines := lh }

/-- The `files` dictionary after the end-of-record branch: commit iff
`current_file and in_lf` (Python truthiness: `None` and the empty string are
falsy). -/
def eorFiles (st : ParseState) : List (String × FileData) :=
  match st.current_file with
  | some f =>
    if pyTruthy f && st.in_lf then
      modEntry FileData.dflt f (commitTotals st.lf_count st.lh_count) st.files
    else st.files
  | none => st.files

/-- The `DA:` branch, applied to the trimmed line.  `line_num` is parsed first,
then the hit count when a second comma-separated field exists (default 0). -/
def daLine (st : ParseState) (line : String) : Option ParseState :=
  match st.current_file with
  | some f =>
    if pyTruthy f then
      match psplitComma (pdrop line 3) with
      | [] => some st   -- String.splitOn never returns []; unreachable
      | p0 :: rest =>
        match pyInt p0 with
        | none => none
        | some line_num =>
          match (match rest with | [] => some (0 : Int) | p1 :: _ => pyInt p1) with
          | none => none
          | some hit_count =>
            some { st with
              files := modEntry FileData.dflt f
                (fun d => { d with lines := updInsert line_num hit_count d.lines }) st.files }
    else some st
  | none => some st

/-- One iteration of the `for line in f` loop of `parse_lcov`.  The line is
stripped, then dispatched on its directive, in the order of the source
(`SF:`, `LF:`, `LH:`, `end_of_record`, `DA:`, otherwise ignored). -/
def processLine (st : ParseState) (rawLine : String) : Option ParseState :=
  let line := pstrip rawLine
  if startswith line "SF:" then
    some { st with current_file := some (pdrop line 3), in_lf := false }
  else if startswith line "LF:" then
    match pyInt (pdrop line 3) with
    | some n => some { st with lf_count := n, in_lf := true }
    | none => none
  else if startswith line "LH:" then
    match pyInt (pdrop line 3) with
    | some n => some { st with lh_count := n }
    | none => none
  else if startswith line "end_of_record" then
    some { st with files := eorFiles st, in_lf := false }
  else if startswith line "DA:" then
    daLine st line
  else
    some st

/-- The full loop of `parse_lcov`. -/
def processLines (st : ParseState) (ls : List String) : Option ParseState :=
  ls.foldlM processLine st

/-- Evolution of the `in_lf` flag over one line: set by `LF:`, cleared by `SF:`
and by `end_of_record`, untouched otherwise. -/
def flagStep (b : Bool) (rawLine : String) : Bool :=
  let line := pstrip rawLine
  if startswith line "SF:" then false
  else if startswith line "LF:" then true
  else if startswith line "LH:" then b
  else if startswith line "end_of_record" then false
  else b

/-- Model of `parse_lcov`: from the lines of the tracefile to the `files`
dictionary; `none` is an uncaught exception aborting the run. -/
def parse_lcov (input : List String) : Option (List (String × FileData)) :=
  (processLines initState input).map ParseState.files

/-! Bit-faithful model of the binary64 arithmetic behind `int(total * 0.8)`.
A binary64 value is a dyadic rational `m * 2 ^ e` carried as the integer pair
`(m, e)`; `round53` is IEEE-754 round-to-nearest, ties-to-even, at 53
significant bits.  Normal range only: every value reached here is far from
binary64 overflow and subnormal underflow, which are therefore not modelled. -/

/-- A dyadic rational `m * 2 ^ e`, the exact value of a binary64 float. -/
structure Dy where
  m : Int
  e : Int
deriving DecidableEq

/-- Exact rational value of a dyadic. -/
def Dy.val (d : Dy) : ℚ := (d.m : ℚ) * 2 ^ d.e

/-- Binary digit count of a natural number, by fuel (structural, so that the
kernel can evaluate it); `bitlen` fixes fuel 1024, enough for every number
below `2 ^ 1024` — far beyond anything in range of this program. -/
def bitlenF : Nat → Nat → Nat
  | 0, _ => 0
  | _ + 1, 0 => 0
  | fuel + 1, n + 1 => bitlenF fuel ((n + 1) / 2) + 1

/-- Binary digit count: `2 ^ (bitlen n - 1) ≤ n < 2 ^ bitlen n` for `0 < n`. -/
def bitlen (n : Nat) : Nat := bitlenF 1024 n

/-- Round away the low `s` bits of a significand `m`, to nearest, ties to even,
by the floor decomposition `m = q * 2^s + r`, `0 ≤ r < 2^s` (to-nearest and the
even-tie rule are sign-symmetric, so the floor decomposition computes them for
either sign). -/
def roundQ (m : Int) (s : Nat) : Int :=
  if m % 2 ^ s < 2 ^ (s - 1) then m / 2 ^ s
  else if (2 : Int) ^ (s - 1) < m % 2 ^ s then m / 2 ^ s + 1
  else if (m / 2 ^ s) % 2 = 0 then m / 2 ^ s else m / 2 ^ s + 1

/-- Round the dyadic `m * 2 ^ e` to 53 significant bits, to nearest, ties to
even.  When the significand already fits the value is exact. -/
def round53 (m : Int) (e : Int) : Dy :=
  if bitlen m.natAbs ≤ 53 then ⟨m, e⟩
  else ⟨roundQ m (bitlen m.natAbs - 53), e + (bitlen m.natAbs - 53)⟩

/-- Exact binary64 value of the literal `0.8`: `3602879701896397 * 2 ^ (-52)`. -/
def c08D : Dy := ⟨3602879701896397, -52⟩

/-- Python `float(n)` of an integer `n` (CPython rounds to nearest, ties to
even, when `n` needs more than 53 bits). -/
def pyFloat (n : Int) : Dy := round53 n 0

/-- Binary64 product: the exact product, rounded back to 53 bits. -/
def pyMulD (a b : Dy) : Dy := round53 (a.m * b.m) (a.e + b.e)

/-- Python `int(x)` of a float `x`: truncation toward zero (`Int.tdiv` is
truncating division). -/
def pyTruncD (d : Dy) : ℤ :=
  if 0 ≤ d.e then d.m * 2 ^ d.e.toNat else Int.tdiv d.m (2 ^ (-d.e).toNat)

/-- The expression `int(total * 0.8) - covered` of `main`, used both for the
per-file `To 80%` column and for the aggregate `needed_for_80`, in exact
binary64 semantics. -/
def needed_for_80 (total covered : Int) : Int :=
  pyTruncD (pyMulD (pyFloat total) c08D) - covered

/-! The reporter (`main`). -/

/-- Per-file `coverage = (covered / total * 100) if total > 0 else 0`. -/
def coveragePercent (d : FileData) : ℚ :=
  if 0 < d.total_lines then (d.covered_lines : ℚ) / (d.total_lines : ℚ) * 100 else 0

/-- Lexicographic code-point comparison of character lists: the order Python
`sorted` uses on strings. -/
def charListLe : List Char → List Char → Bool
  | [], _ => true
  | _ :: _, [] => false
  | a :: as, b :: bs => if a < b then true else if b < a then false else charListLe as bs

/-- The key order of `sorted(files.keys())`. -/
def keyLe (a b : String) : Prop := charListLe a.data b.data = true

instance : DecidableRel keyLe := fun a b =>
  inferInstanceAs (Decidable (charListLe a.data b.data = true))

/-- The iteration order `sorted(files.keys())` of the Part A loop:
ascending lexicographic string order, as a stable sort of the key list. -/
def sortedKeys (files : List (String × FileData)) : List String :=
  (files.map Prod.fst).insertionSort keyLe

/-- The running totals `total_lines` and `total_covered` accumulated by the
Part A loop over `sorted(files.keys())`. -/
def runningTotals (files : List (String × FileData)) : Int × Int :=
  ((sortedKeys files).map (fun k => lookupD FileData.dflt k files)).foldl
    (fun acc d => (acc.1 + d.total_lines, acc.2 + d.covered_lines)) (0, 0)

/-- Accumulated `total_lines`. -/
def total_lines_all (files : List (String × FileData)) : Int := (runningTotals files).1

/-- Accumulated `total_covered`. -/
def total_covered_all (files : List (String × FileData)) : Int := (runningTotals files).2

/-- `overall_coverage = (total_covered / total_lines * 100) if total_lines > 0 else 0`. -/
def overall_coverage (files : List (String × FileData)) : ℚ :=
  if 0 < total_lines_all files then
    (total_covered_all files : ℚ) / (total_lines_all files : ℚ) * 100
  else 0

/-- The aggregate `needed_for_80 = int(total_lines * 0.8) - total_covered`. -/
def overall_needed (files : List (String × FileData)) : Int :=
  needed_for_80 (total_lines_all files) (total_covered_all files)

/-- The printed `Lines Needed: max(0, needed_for_80)`. -/
def lines_needed_displayed (files : List (String × FileData)) : Int :=
  max 0 (overall_needed files)

/-- The `file_coverage` list of Part C: a `(file, covered / total,
total - covered)` triple for every entry with `total_lines > 0`, in dictionary
(insertion) order. -/
def file_coverage (files : List (String × FileData)) : List (String × ℚ × Int) :=
  files.filterMap fun p =>
    if 0 < p.2.total_lines then
      some (p.1, (p.2.covered_lines : ℚ) / (p.2.total_lines : ℚ),
        p.2.total_lines - p.2.covered_lines)
    else none

/-- The key order of `file_coverage.sort(key=lambda x: x[1])`. -/
def covRel (a b : String × ℚ × Int) : Prop := a.2.1 ≤ b.2.1

instance : DecidableRel covRel := fun a b => inferInstanceAs (Decidable (a.2.1 ≤ b.2.1))

instance : IsTotal (String × ℚ × Int) covRel := ⟨fun a b => le_total a.2.1 b.2.1⟩

instance : IsTrans (String × ℚ × Int) covRel := ⟨fun _ _ _ h h' => le_trans h h'⟩

/-- Part C: the five lowest-coverage files, stable-sorted ascending by the
coverage fraction. -/
def partC (files : List (String × FileData)) : List (String × ℚ × Int) :=
  ((file_coverage files).insertionSort covRel).take 5

/-- Sum of `total_lines` restricted to the parsed files with positive
`total_lines` (the restriction stated by the specification for the aggregate). -/
def totSumPos (files : List (String × FileData)) : Int :=
  ((files.filter fun p => 0 < p.2.total_lines).map fun p => p.2.total_lines).sum

/-- Sum of `covered_lines` restricted to the parsed files with positive
`total_lines`. -/
def covSumPos (files : List (String × FileData)) : Int :=
  ((files.filter fun p => 0 < p.2.total_lines).map fun p => p.2.covered_lines).sum

/-- Everything `main` prints, as structured data (the fixed-width text layout
and the path shortening are presentation only and carry no further data). -/
structure Report where
  rows : List (String × Int × Int × ℚ × Int)
  totalCovered : Int
  totalLines : Int
  overall : ℚ
  linesNeeded : Int
  prioritized : List (String × ℚ × Int)
deriving DecidableEq

/-- The report `main` renders from a successfully parsed `files` dictionary:
the Part A rows in sorted key order, the Part B totals, and the Part C list. -/
def buildReport (files : List (String × FileData)) : Report :=
  { rows := (sortedKeys files).map fun k =>
      let d := lookupD FileData.dflt k files
      (k, d.covered_lines, d.total_lines, coveragePercent d,
        needed_for_80 d.total_lines d.covered_lines)
    totalCovered := total_covered_all files
    totalLines := total_lines_all files
    overall := overall_coverage files
    linesNeeded := lines_needed_displayed files
    prioritized := partC files }

/-- `main`: `parse_lcov` runs to completion, then the report is printed.
A `none` input models an unreadable `coverage/lcov.info`; a `none` result
models abnormal termination with no output at all. -/
def mainRun (input : Option (List String)) : Option Report :=
  match input with
  | none => none
  | some ls => (parse_lcov ls).map buildReport

/-! Helper lemmas: directive prefixes are mutually exclusive. -/

theorem startswith_disjoint {s p q : String} (hpq : ¬ p.data <+: q.data)
    (hqp : ¬ q.data <+: p.data) (h : startswith s q = true) : startswith s p = false := by
  rw [startswith, List.isPrefixOf_iff_prefix] at h
  rw [startswith, Bool.eq_false_iff, ne_eq, List.isPrefixOf_iff_prefix]
  intro hp
  rcases List.prefix_or_prefix_of_prefix hp h with h' | h'
  · exact hpq h'
  · exact hqp h'

theorem sw_lf_sf {s : String} (h : startswith s "LF:" = true) : startswith s "SF:" = false :=
  startswith_disjoint (by decide) (by decide) h

theorem sw_lh_sf {s : String} (h : startswith s "LH:" = true) : startswith s "SF:" = false :=
  startswith_disjoint (by decide) (by decide) h

theorem sw_lh_lf {s : String} (h : startswith s "LH:" = true) : startswith s "LF:" = false :=
  startswith_disjoint (by decide) (by decide) h

theorem sw_eor_sf {s : String} (h : startswith s "end_of_record" = true) :
    startswith s "SF:" = false :=
  startswith_disjoint (by decide) (by decide) h

theorem sw_eor_lf {s : String} (h : startswith s "end_of_record" = true) :
    startswith s "LF:" = false :=
  startswith_disjoint (by decide) (by decide) h

theorem sw_eor_lh {s : String} (h : startswith s "end_of_record" = true) :
    startswith s "LH:" = false :=
  startswith_disjoint (by decide) (by decide) h

theorem sw_da_sf {s : String} (h : startswith s "DA:" = true) : startswith s "SF:" = false :=
  startswith_disjoint (by decide) (by decide) h

theorem sw_da_lf {s : String} (h : startswith s "DA:" = true) : startswith s "LF:" = false :=
  startswith_disjoint (by decide) (by decide) h

theorem sw_da_lh {s : String} (h : startswith s "DA:" = true) : startswith s "LH:" = false :=
  startswith_disjoint (by decide) (by decide) h

theorem sw_da_eor {s : String} (h : startswith s "DA:" = true) :
    startswith s "end_of_record" = false :=
  startswith_disjoint (by decide) (by decide) h

/-! Helper lemmas: how `processLine` reduces on each directive. -/

theorem processLine_sf {st : ParseState} {l : String}
    (h : startswith (pstrip l) "SF:" = true) :
    processLine st l = some { st with current_file := some (pdrop (pstrip l) 3), in_lf := false } := by
  simp only [processLine, h, if_true]

theorem processLine_lf {st : ParseState} {l : String}
    (h : startswith (pstrip l) "LF:" = true) :
    processLine st l =
      match pyInt (pdrop (pstrip l) 3) with
      | some n => some { st with lf_count := n, in_lf := true }
      | none => none := by
  simp only [processLine, h, sw_lf_sf h, if_true, if_false, Bool.false_eq_true]

theorem processLine_lh {st : ParseState} {l : String}
    (h : startswith (pstrip l) "LH:" = true) :
    processLine st l =
      match pyInt (pdrop (pstrip l) 3) with
      | some n => some { st with lh_count := n }
      | none => none := by
  simp only [processLine, h, sw_lh_sf h, sw_lh_lf h, if_true, if_false, Bool.false_eq_true]

theorem processLine_eor {st : ParseState} {l : String}
    (h : startswith (pstrip l) "end_of_record" = true) :
    processLine st l = some { st with files := eorFiles st, in_lf := false } := by
  simp only [processLine, h, sw_eor_sf h, sw_eor_lf h, sw_eor_lh h, if_true, if_false,
    Bool.false_eq_true]

theorem processLine_da {st : ParseState} {l : String}
    (h : startswith (pstrip l) "DA:" = true) :
    processLine st l = daLine st (pstrip l) := by
  simp only [processLine, h, sw_da_sf h, sw_da_lf h, sw_da_lh h, sw_da_eor h, if_true, if_false,
    Bool.false_eq_true]

theorem processLine_other {st : ParseState} {l : String}
    (h1 : startswith (pstrip l) "SF:" = false) (h2 : startswith (pstrip l) "LF:" = false)
    (h3 : startswith (pstrip l) "LH:" = false)
    (h4 : startswith (pstrip l) "end_of_record" = false)
    (h5 : startswith (pstrip l) "DA:" = false) :
    processLine st l = some st := by
  simp only [processLine, h1, h2, h3, h4, h5, if_false, Bool.false_eq_true]

/-! Helper lemmas: association lists. -/

theorem lookupD_updInsert_self {α β : Type} [DecidableEq α] (dflt : β) (k : α) (v : β) :
    ∀ l : List (α × β), lookupD dflt k (updInsert k v l) = v
  | [] => by simp [updInsert, lookupD]
  | (k', v') :: rest => by
    by_cases h : k' = k
    · simp [updInsert, lookupD, h]
    · simp only [updInsert, if_neg h, lookupD, if_neg h]
      exact lookupD_updInsert_self dflt k v rest

theorem lookupD_updInsert_ne {α β : Type} [DecidableEq α] (dflt : β) {k g : α} (v : β)
    (hg : g ≠ k) : ∀ l : List (α × β), lookupD dflt g (updInsert k v l) = lookupD dflt g l
  | [] => by simp [updInsert, lookupD, Ne.symm hg]
  | (k', v') :: rest => by
    by_cases h : k' = k
    · subst h
      simp [updInsert, lookupD, Ne.symm hg]
    · simp only [updInsert, if_neg h, lookupD]
      by_cases h' : k' = g
      · simp [h']
      · simp only [if_neg h']
        exact lookupD_updInsert_ne dflt v hg rest

theorem lookupD_modEntry_self {α β : Type} [DecidableEq α] (dflt : β) (k : α) (f : β → β) :
    ∀ l : List (α × β), lookupD dflt k (modEntry dflt k f l) = f (lookupD dflt k l)
  | [] => by simp [modEntry, lookupD]
  | (k', v') :: rest => by
    by_cases h : k' = k
    · simp [modEntry, lookupD, h]
    · simp only [modEntry, if_neg h, lookupD, if_neg h]
      exact lookupD_modEntry_self dflt k f rest

theorem lookupD_modEntry_ne {α β : Type} [DecidableEq α] (dflt : β) {k g : α} (f : β → β)
    (hg : g ≠ k) : ∀ l : List (α × β), lookupD dflt g (modEntry dflt k f l) = lookupD dflt g l
  | [] => by simp [modEntry, lookupD, Ne.symm hg]
  | (k', v') :: rest => by
    by_cases h : k' = k
    · subst h
      simp [modEntry, lookupD, Ne.symm hg]
    · simp only [modEntry, if_neg h, lookupD]
      by_cases h' : k' = g
      · simp [h']
      · simp only [if_neg h']
        exact lookupD_modEntry_ne dflt f hg rest

theorem keys_modEntry {α β : Type} [DecidableEq α] (dflt : β) (k : α) (f : β → β) :
    ∀ l : List (α × β), (modEntry dflt k f l).map Prod.fst =
      if k ∈ l.map Prod.fst then l.map Prod.fst else l.map Prod.fst ++ [k]
  | [] => by simp [modEntry]
  | (k', v') :: rest => by
    by_cases h : k' = k
    · simp [modEntry, h]
    · have hne : ¬ k = k' := fun hh => h hh.symm
      simp only [modEntry, if_neg h, List.map_cons, List.mem_cons, hne, false_or]
      rw [keys_modEntry dflt k f rest]
      by_cases hm : k ∈ rest.map Prod.fst
      · simp [hm]
      · simp [hm]

theorem nodup_keys_modEntry {α β : Type} [DecidableEq α] (dflt : β) (k : α) (f : β → β)
    (l : List (α × β)) (h : (l.map Prod.fst).Nodup) :
    ((modEntry dflt k f l).map Prod.fst).Nodup := by
  rw [keys_modEntry]
  by_cases hm : k ∈ l.map Prod.fst
  · simpa [hm] using h
  · simp only [hm, if_false]
    simpa [List.nodup_append, hm] using h

theorem mem_unique_of_nodup_keys {α β : Type} [DecidableEq α] {k : α} {d d' : β} :
    ∀ {l : List (α × β)}, (l.map Prod.fst).Nodup → (k, d) ∈ l → (k, d') ∈ l → d = d'
  | [], _, h, _ => by simp at h
  | (k', v') :: rest, hnd, h1, h2 => by
    simp only [List.map_cons, List.nodup_cons] at hnd
    rcases List.mem_cons.mp h1 with h1' | h1' <;> rcases List.mem_cons.mp h2 with h2' | h2'
    · rw [Prod.mk.injEq] at h1' h2'
      exact h1'.2.trans h2'.2.symm
    · exfalso
      apply hnd.1
      rw [Prod.mk.injEq] at h1'
      rw [← h1'.1]
      exact List.mem_map.mpr ⟨(k, d'), h2', rfl⟩
    · exfalso
      apply hnd.1
      rw [Prod.mk.injEq] at h2'
      rw [← h2'.1]
      exact List.mem_map.mpr ⟨(k, d), h1', rfl⟩
    · exact mem_unique_of_nodup_keys hnd.2 h1' h2'

/-! Helper lemmas: the loop, and per-step invariants. -/

theorem processLines_nil (st : ParseState) : processLines st [] = some st := rfl

theorem processLines_cons (st : ParseState) (l : String) (ls : List String) :
    processLines st (l :: ls) = (processLine st l).bind fun st' => processLines st' ls := by
  simp [processLines, List.foldlM_cons]

theorem daLine_state {st : ParseState} {l : String} {st' : ParseState}
    (h : daLine st l = some st') :
    st'.current_file = st.current_file ∧ st'.in_lf = st.in_lf ∧
      st'.lf_count = st.lf_count ∧ st'.lh_count = st.lh_count := by
  obtain ⟨fls, cf, ilf, lfc, lhc⟩ := st
  rcases cf with _ | f
  · simp only [daLine] at h
    injection h with h
    rw [← h]
    exact ⟨rfl, rfl, rfl, rfl⟩
  · simp only [daLine] at h
    by_cases ht : pyTruthy f = true
    · rw [if_pos ht] at h
      rcases hsp : psplitComma (pdrop l 3) with _ | ⟨p0, rest⟩ <;> simp only [hsp] at h
      · injection h with h
        rw [← h]
        exact ⟨rfl, rfl, rfl, rfl⟩
      · rcases hp0 : pyInt p0 with _ | ln <;> simp only [hp0] at h
        · exact Option.noConfusion h
        · rcases hp1 : (match rest with | [] => some (0 : Int) | p1 :: _ => pyInt p1)
            with _ | hit <;> simp only [hp1] at h
          · exact Option.noConfusion h
          · injection h with h
            rw [← h]
            exact ⟨rfl, rfl, rfl, rfl⟩
    · rw [if_neg ht] at h
      injection h with h
      rw [← h]
      exact ⟨rfl, rfl, rfl, rfl⟩

theorem processLine_flag {st : ParseState} {l : String} {st' : ParseState}
    (h : processLine st l = some st') : st'.in_lf = flagStep st.in_lf l := by
  unfold flagStep
  by_cases h1 : startswith (pstrip l) "SF:"
  · rw [processLine_sf h1] at h
    rw [Option.some.injEq] at h
    simp [← h, h1]
  · by_cases h2 : startswith (pstrip l) "LF:"
    · rw [processLine_lf h2] at h
      rcases hp : pyInt (pdrop (pstrip l) 3) with _ | n <;> rw [hp] at h
      · exact absurd h (by simp)
      · rw [Option.some.injEq] at h
        simp [← h, h1, h2]
    · by_cases h3 : startswith (pstrip l) "LH:"
      · rw [processLine_lh h3] at h
        rcases hp : pyInt (pdrop (pstrip l) 3) with _ | n <;> rw [hp] at h
        · exact absurd h (by simp)
        · rw [Option.some.injEq] at h
          simp [← h, h1, h2, h3]
      · by_cases h4 : startswith (pstrip l) "end_of_record"
        · rw [processLine_eor h4] at h
          rw [Option.some.injEq] at h
          simp [← h, h1, h2, h3, h4]
        · simp only [Bool.not_eq_true] at h1 h2 h3 h4
          simp only [h1, h2, h3, h4, Bool.false_eq_true, if_false]
          by_cases h5 : startswith (pstrip l) "DA:"
          · rw [processLine_da h5] at h
            exact (daLine_state h).2.1
          · rw [processLine_other h1 h2 h3 h4 (Bool.not_eq_true _ |>.mp h5)] at h
            rw [Option.some.injEq] at h
            rw [← h]


theorem processLine_pres {st : ParseState} {l : String} {st' : ParseState}
    (h : processLine st l = some st')
    (h1 : startswith (pstrip l) "SF:" = false)
    (h3 : startswith (pstrip l) "LH:" = false)
    (h4 : startswith (pstrip l) "end_of_record" = false) :
    st'.current_file = st.current_file ∧ st'.lh_count = st.lh_count ∧
      st'.in_lf = (st.in_lf || startswith (pstrip l) "LF:") := by
  by_cases h2 : startswith (pstrip l) "LF:" = true
  · rw [processLine_lf h2] at h
    rcases hp : pyInt (pdrop (pstrip l) 3) with _ | n <;> simp only [hp] at h
    · exact Option.noConfusion h
    · injection h with h
      rw [← h, h2]
      simp
  · rw [Bool.not_eq_true] at h2
    by_cases h5 : startswith (pstrip l) "DA:" = true
    · rw [processLine_da h5] at h
      obtain ⟨hcf, hlf, _, hlh⟩ := daLine_state h
      rw [h2]
      exact ⟨hcf, hlh, by rw [hlf]; simp⟩
    · rw [Bool.not_eq_true] at h5
      rw [processLine_other h1 h2 h3 h4 h5] at h
      injection h with h
      rw [← h, h2]
      simp

theorem processLines_flag : ∀ (ls : List String) (st st' : ParseState),
    processLines st ls = some st' → st'.in_lf = ls.foldl flagStep st.in_lf
  | [], st, st', h => by
    rw [processLines_nil] at h
    injection h with h
    rw [← h]
    rfl
  | l :: ls, st, st', h => by
    rw [processLines_cons] at h
    rcases hstep : processLine st l with _ | st₁ <;> rw [hstep] at h
    · exact Option.noConfusion h
    · rw [Option.some_bind] at h
      rw [List.foldl_cons, ← processLine_flag hstep]
      exact processLines_flag ls st₁ st' h

theorem eorFiles_commit {st : ParseState} {f : String} (hc : st.current_file = some f)
    (ht : pyTruthy f = true) (hl : st.in_lf = true) :
    eorFiles st = modEntry FileData.dflt f (commitTotals st.lf_count st.lh_count) st.files := by
  simp [eorFiles, hc, ht, hl]

theorem eorFiles_skip {st : ParseState}
    (hno : ¬ ∃ f, st.current_file = some f ∧ pyTruthy f = true ∧ st.in_lf = true) :
    eorFiles st = st.files := by
  unfold eorFiles
  split
  next f heq =>
    have hcond : (pyTruthy f && st.in_lf) = false := by
      rw [Bool.and_eq_false_iff]
      by_cases hx : pyTruthy f = true
      · right
        by_cases hy : st.in_lf = true
        · exact absurd ⟨f, heq, hx, hy⟩ hno
        · rwa [Bool.not_eq_true] at hy
      · left
        rwa [Bool.not_eq_true] at hx
    simp [hcond]
  next heq => rfl

theorem eorFiles_nodup (st : ParseState) (hn : (st.files.map Prod.fst).Nodup) :
    ((eorFiles st).map Prod.fst).Nodup := by
  unfold eorFiles
  split
  next f heq =>
    by_cases hcond : (pyTruthy f && st.in_lf) = true
    · rw [hcond]
      simpa using nodup_keys_modEntry _ _ _ _ hn
    · rw [Bool.not_eq_true] at hcond
      simp [hcond]
      exact hn
  next heq => exact hn

theorem daLine_files {st : ParseState} {f : String} {l : String} {st' : ParseState}
    (hc : st.current_file = some f) (ht : pyTruthy f = true)
    (h : daLine st l = some st') :
    (∃ p0 rest line_num hit_count,
        psplitComma (pdrop l 3) = p0 :: rest ∧ pyInt p0 = some line_num ∧
        ((rest = [] ∧ hit_count = 0) ∨ ∃ p1 r2, rest = p1 :: r2 ∧ pyInt p1 = some hit_count) ∧
        st'.files = modEntry FileData.dflt f
          (fun d => { d with lines := updInsert line_num hit_count d.lines }) st.files) ∨
      (psplitComma (pdrop l 3) = [] ∧ st'.files = st.files) := by
  unfold daLine at h
  rw [hc] at h
  simp only [if_pos ht] at h
  rcases hsp : psplitComma (pdrop l 3) with _ | ⟨p0, rest⟩ <;> simp only [hsp] at h
  · right
    injection h with h
    rw [← h]
    exact ⟨rfl, rfl⟩
  · left
    rcases hp0 : pyInt p0 with _ | ln <;> simp only [hp0] at h
    · exact Option.noConfusion h
    · rcases hp1 : (match rest with | [] => some (0 : Int) | p1 :: _ => pyInt p1)
        with _ | hit <;> simp only [hp1] at h
      · exact Option.noConfusion h
      · injection h with h
        refine ⟨p0, rest, ln, hit, rfl, hp0, ?_, by rw [← h]⟩
        rcases rest with _ | ⟨p1, r2⟩
        · left
          refine ⟨rfl, ?_⟩
          injection hp1 with hp1
          exact hp1.symm
        · right
          exact ⟨p1, r2, rfl, hp1⟩

theorem daLine_nodup {st : ParseState} {l : String} {st' : ParseState}
    (h : daLine st l = some st') (hn : (st.files.map Prod.fst).Nodup) :
    (st'.files.map Prod.fst).Nodup := by
  rcases hc : st.current_file with _ | f
  · unfold daLine at h
    rw [hc] at h
    injection h with h
    rw [← h]
    exact hn
  · by_cases ht : pyTruthy f = true
    · rcases daLine_files hc ht h with ⟨_, _, _, _, _, _, _, hf⟩ | ⟨_, hf⟩
      · rw [hf]
        exact nodup_keys_modEntry _ _ _ _ hn
      · rw [hf]
        exact hn
    · unfold daLine at h
      rw [hc] at h
      rw [Bool.not_eq_true] at ht
      simp only [ht, Bool.false_eq_true, if_false] at h
      injection h with h
      rw [← h]
      exact hn

theorem processLine_nodup {st : ParseState} {l : String} {st' : ParseState}
    (h : processLine st l = some st') (hn : (st.files.map Prod.fst).Nodup) :
    (st'.files.map Prod.fst).Nodup := by
  by_cases h1 : startswith (pstrip l) "SF:" = true
  · rw [processLine_sf h1] at h
    injection h with h
    rw [← h]
    exact hn
  · rw [Bool.not_eq_true] at h1
    by_cases h2 : startswith (pstrip l) "LF:" = true
    · rw [processLine_lf h2] at h
      rcases hp : pyInt (pdrop (pstrip l) 3) with _ | n <;> simp only [hp] at h
      · exact Option.noConfusion h
      · injection h with h
        rw [← h]
        exact hn
    · rw [Bool.not_eq_true] at h2
      by_cases h3 : startswith (pstrip l) "LH:" = true
      · rw [processLine_lh h3] at h
        rcases hp : pyInt (pdrop (pstrip l) 3) with _ | n <;> simp only [hp] at h
        · exact Option.noConfusion h
        · injection h with h
          rw [← h]
          exact hn
      · rw [Bool.not_eq_true] at h3
        by_cases h4 : startswith (pstrip l) "end_of_record" = true
        · rw [processLine_eor h4] at h
          injection h with h
          rw [← h]
          exact eorFiles_nodup st hn
        · rw [Bool.not_eq_true] at h4
          by_cases h5 : startswith (pstrip l) "DA:" = true
          · rw [processLine_da h5] at h
            exact daLine_nodup h hn
          · rw [Bool.not_eq_true] at h5
            rw [processLine_other h1 h2 h3 h4 h5] at h
            injection h with h
            rw [← h]
            exact hn

theorem processLines_nodup : ∀ (ls : List String) (st st' : ParseState),
    processLines st ls = some st' → (st.files.map Prod.fst).Nodup →
    (st'.files.map Prod.fst).Nodup
  | [], st, st', h, hn => by
    rw [processLines_nil] at h
    injection h with h
    rw [← h]
    exact hn
  | l :: ls, st, st', h, hn => by
    rw [processLines_cons] at h
    rcases hstep : processLine st l with _ | st₁ <;> rw [hstep] at h
    · exact Option.noConfusion h
    · rw [Option.some_bind] at h
      exact processLines_nodup ls st₁ st' h (processLine_nodup hstep hn)

/-- Parsed dictionaries have one entry per path. -/
theorem parse_lcov_nodup_keys {input : List String} {files : List (String × FileData)}
    (h : parse_lcov input = some files) : (files.map Prod.fst).Nodup := by
  unfold parse_lcov at h
  rcases hrun : processLines initState input with _ | st <;> rw [hrun] at h
  · exact Option.noConfusion h
  · injection h with h
    rw [← h]
    exact processLines_nodup input initState st hrun (by simp [initState])

theorem processLines_append : ∀ (as bs : List String) (st : ParseState),
    processLines st (as ++ bs) = (processLines st as).bind fun st' => processLines st' bs
  | [], bs, st => by simp [processLines_nil]
  | a :: as, bs, st => by
    rw [List.cons_append, processLines_cons, processLines_cons]
    rcases processLine st a with _ | st₁
    · rfl
    · rw [Option.some_bind, Option.some_bind]
      exact processLines_append as bs st₁

/-- Over lines that are neither `SF:` nor `LH:` nor `end_of_record`, the loop
keeps `current_file` and `lh_count`, and `in_lf` ends up set iff it was set or
some `LF:` line occurred. -/
theorem processLines_body : ∀ (body : List String) (st st' : ParseState),
    processLines st body = some st' →
    (∀ l ∈ body, startswith (pstrip l) "SF:" = false ∧ startswith (pstrip l) "LH:" = false ∧
      startswith (pstrip l) "end_of_record" = false) →
    st'.current_file = st.current_file ∧ st'.lh_count = st.lh_count ∧
      st'.in_lf = (st.in_lf || body.any fun l => startswith (pstrip l) "LF:")
  | [], st, st', h, _ => by
    rw [processLines_nil] at h
    injection h with h
    rw [← h]
    simp
  | l :: body, st, st', h, hb => by
    rw [processLines_cons] at h
    rcases hstep : processLine st l with _ | st₁ <;> rw [hstep] at h
    · exact Option.noConfusion h
    · rw [Option.some_bind] at h
      obtain ⟨hb1, hb2, hb3⟩ := hb l (List.mem_cons_self l body)
      obtain ⟨hc1, hc2, hc3⟩ := processLine_pres hstep hb1 hb2 hb3
      obtain ⟨hd1, hd2, hd3⟩ := processLines_body body st₁ st' h
        (fun x hx => hb x (List.mem_cons_of_mem l hx))
      refine ⟨hd1.trans hc1, hd2.trans hc2, ?_⟩
      rw [hd3, hc3, List.any_cons]
      cases st.in_lf <;> cases hlf : startswith (pstrip l) "LF:" <;> simp

/-! Helper lemmas: the running totals of the report are plain sums. -/

theorem foldl_pairSum : ∀ (l : List FileData) (a b : Int),
    l.foldl (fun acc d => (acc.1 + d.total_lines, acc.2 + d.covered_lines)) (a, b) =
      (a + (l.map FileData.total_lines).sum, b + (l.map FileData.covered_lines).sum)
  | [], a, b => by simp
  | d :: l, a, b => by
    rw [List.foldl_cons, foldl_pairSum l]
    simp only [List.map_cons, List.sum_cons]
    rw [Prod.mk.injEq]
    constructor <;> ring

theorem map_lookupD_keys : ∀ (files : List (String × FileData)),
    (files.map Prod.fst).Nodup →
    (files.map Prod.fst).map (fun k => lookupD FileData.dflt k files) = files.map Prod.snd
  | [], _ => rfl
  | (k, d) :: rest, hnd => by
    simp only [List.map_cons, List.nodup_cons] at hnd ⊢
    have hhead : lookupD FileData.dflt k ((k, d) :: rest) = d := by simp [lookupD]
    rw [hhead]
    have htail : (rest.map Prod.fst).map (fun g => lookupD FileData.dflt g ((k, d) :: rest)) =
        (rest.map Prod.fst).map (fun g => lookupD FileData.dflt g rest) := by
      apply List.map_congr_left
      intro g hg
      simp only [lookupD]
      rw [if_neg]
      intro hkg
      rw [← hkg] at hg
      exact hnd.1 hg
    rw [htail, map_lookupD_keys rest hnd.2]

/-- The totals accumulated over `sorted(files.keys())` are the sums of the
column values, provided keys are unique (as they are in a Python dict). -/
theorem runningTotals_eq_sums (files : List (String × FileData))
    (hnd : (files.map Prod.fst).Nodup) :
    runningTotals files =
      ((files.map fun p => p.2.total_lines).sum, (files.map fun p => p.2.covered_lines).sum) := by
  unfold runningTotals
  rw [foldl_pairSum]
  have hperm : List.Perm (sortedKeys files) (files.map Prod.fst) :=
    List.perm_insertionSort keyLe _
  have hpm : List.Perm ((sortedKeys files).map (fun k => lookupD FileData.dflt k files))
      ((files.map Prod.fst).map (fun k => lookupD FileData.dflt k files)) := hperm.map _
  rw [map_lookupD_keys files hnd] at hpm
  have h1 : List.Perm (((sortedKeys files).map (fun k => lookupD FileData.dflt k files)).map
      FileData.total_lines) ((files.map Prod.snd).map FileData.total_lines) := hpm.map _
  have h2 : List.Perm (((sortedKeys files).map (fun k => lookupD FileData.dflt k files)).map
      FileData.covered_lines) ((files.map Prod.snd).map FileData.covered_lines) := hpm.map _
  rw [h1.sum_eq, h2.sum_eq, List.map_map, List.map_map]
  simp only [Prod.mk.injEq, zero_add]
  exact ⟨rfl, rfl⟩

theorem total_lines_all_eq (files : List (String × FileData))
    (hnd : (files.map Prod.fst).Nodup) :
    total_lines_all files = (files.map fun p => p.2.total_lines).sum := by
  rw [total_lines_all, runningTotals_eq_sums files hnd]

theorem total_covered_all_eq (files : List (String × FileData))
    (hnd : (files.map Prod.fst).Nodup) :
    total_covered_all files = (files.map fun p => p.2.covered_lines).sum := by
  rw [total_covered_all, runningTotals_eq_sums files hnd]

/-! Helper lemmas: the binary64 model. -/

theorem bitlenF_zero : ∀ fuel, bitlenF fuel 0 = 0
  | 0 => rfl
  | _ + 1 => rfl

theorem bitlenF_spec : ∀ (fuel n : Nat), 0 < n → n < 2 ^ fuel →
    2 ^ (bitlenF fuel n - 1) ≤ n ∧ n < 2 ^ bitlenF fuel n
  | 0, n, hn, hf => by
    rw [pow_zero] at hf
    omega
  | fuel + 1, 0, hn, _ => by omega
  | fuel + 1, m + 1, _, hf => by
    rw [show bitlenF (fuel + 1) (m + 1) = bitlenF fuel ((m + 1) / 2) + 1 from rfl]
    by_cases hz : (m + 1) / 2 = 0
    · have hm : m = 0 := by omega
      subst hm
      rw [hz, bitlenF_zero]
      norm_num
    · have hlt : (m + 1) / 2 < 2 ^ fuel := by
        rw [pow_succ] at hf
        omega
      obtain ⟨h1, h2⟩ := bitlenF_spec fuel ((m + 1) / 2) (Nat.pos_of_ne_zero hz) hlt
      have hb1 : 1 ≤ bitlenF fuel ((m + 1) / 2) := by
        by_contra hb0
        have hz' : bitlenF fuel ((m + 1) / 2) = 0 := by omega
        rw [hz', pow_zero] at h2
        omega
      constructor
      · simp only [Nat.add_sub_cancel]
        have hx : (2 : Nat) ^ bitlenF fuel ((m + 1) / 2) =
            2 ^ (bitlenF fuel ((m + 1) / 2) - 1) * 2 := by
          rw [← pow_succ]
          congr 1
          omega
        omega
      · have hx : (2 : Nat) ^ (bitlenF fuel ((m + 1) / 2) + 1) =
            2 ^ bitlenF fuel ((m + 1) / 2) * 2 := by
          rw [pow_succ]
        omega

theorem bitlen_spec (n : Nat) (h0 : 0 < n) (h : n < 2 ^ 1024) :
    2 ^ (bitlen n - 1) ≤ n ∧ n < 2 ^ bitlen n := bitlenF_spec 1024 n h0 h

theorem bitlen_le (n k : Nat) (hk : k ≤ 1024) (h : n < 2 ^ k) : bitlen n ≤ k := by
  rcases Nat.eq_zero_or_pos n with h0 | h0
  · subst h0
    rw [bitlen, bitlenF_zero]
    omega
  · have hn : n < 2 ^ 1024 := lt_of_lt_of_le h (Nat.pow_le_pow_right (by norm_num) hk)
    obtain ⟨h1, _⟩ := bitlen_spec n h0 hn
    by_contra hgt
    push_neg at hgt
    have hsk : 2 ^ k ≤ 2 ^ (bitlen n - 1) := Nat.pow_le_pow_right (by norm_num) (by omega)
    omega

theorem lt_bitlen (n k : Nat) (h0 : 0 < n) (hn : n < 2 ^ 1024) (h : 2 ^ k ≤ n) :
    k < bitlen n := by
  obtain ⟨_, h2⟩ := bitlen_spec n h0 hn
  by_contra hle
  push_neg at hle
  have hsk : 2 ^ bitlen n ≤ 2 ^ k := Nat.pow_le_pow_right (by norm_num) hle
  omega

theorem round53_small {m : ℤ} (e : ℤ) (h : bitlen m.natAbs ≤ 53) : round53 m e = ⟨m, e⟩ := by
  unfold round53
  rw [if_pos h]

theorem round53_big {m : ℤ} (e : ℤ) (h : ¬ bitlen m.natAbs ≤ 53) :
    round53 m e = ⟨roundQ m (bitlen m.natAbs - 53), e + (bitlen m.natAbs - 53)⟩ := by
  unfold round53
  rw [if_neg h]

theorem roundQ_cases (m : ℤ) (s : ℕ) : roundQ m s = m / 2 ^ s ∨ roundQ m s = m / 2 ^ s + 1 := by
  unfold roundQ
  split_ifs <;> simp

theorem roundQ_down (m : ℤ) (s : ℕ) (h : m % 2 ^ s < 2 ^ (s - 1)) : roundQ m s = m / 2 ^ s := by
  unfold roundQ
  rw [if_pos h]

theorem tdiv_eq_of_bracket (m' : ℤ) (k : ℕ) (n : ℤ) (hn : 0 ≤ n)
    (h1 : n * 2 ^ k ≤ m') (h2 : m' < (n + 1) * 2 ^ k) : Int.tdiv m' (2 ^ k) = n := by
  have hkpos : (0 : ℤ) < 2 ^ k := by positivity
  have hm' : 0 ≤ m' := le_trans (by positivity) h1
  rw [Int.tdiv_eq_ediv hm' (by positivity)]
  have hlow : n ≤ m' / 2 ^ k := (Int.le_ediv_iff_mul_le hkpos).mpr h1
  have hhigh : m' / 2 ^ k < n + 1 := (Int.ediv_lt_iff_lt_mul hkpos).mpr h2
  omega

/-- Core of claims about `int(total * 0.8)`: below `2 ^ 48` the double-precision
computation agrees with the exact rational floor `(4 * total) / 5`. -/
theorem trunc_mul_c08 (t : ℤ) (h0 : 0 ≤ t) (hb : t < 2 ^ 48) :
    pyTruncD (pyMulD (pyFloat t) c08D) = (4 * t) / 5 := by
  rcases le_or_lt t 2 with h2 | h2
  · interval_cases t <;> decide
  · norm_num at hb
    have hfl : pyFloat t = ⟨t, 0⟩ := by
      rw [pyFloat]
      apply round53_small
      refine le_trans (bitlen_le t.natAbs 48 (by norm_num) ?_) (by norm_num)
      have h48 : (2 : ℕ) ^ 48 = 281474976710656 := by norm_num
      omega
    have hmul : pyMulD (pyFloat t) c08D = round53 (t * 3602879701896397) (-52) := by
      rw [hfl, pyMulD]
      show round53 (t * 3602879701896397) (0 + -52) = round53 (t * 3602879701896397) (-52)
      norm_num
    rw [hmul]
    have hPpos : (0 : ℤ) < t * 3602879701896397 := by positivity
    have hPlow : 9007199254740992 < t * 3602879701896397 := by nlinarith
    have hPhigh : t * 3602879701896397 < 1014120480182583577492357906432 := by nlinarith
    have hPn : ((t * 3602879701896397).natAbs : ℤ) = t * 3602879701896397 :=
      Int.natAbs_of_nonneg hPpos.le
    have hPn1024 : (t * 3602879701896397).natAbs < 2 ^ 1024 := by
      have h100 : (t * 3602879701896397).natAbs < 2 ^ 100 := by
        have h100l : (2 : ℕ) ^ 100 = 1267650600228229401496703205376 := by norm_num
        omega
      exact lt_of_lt_of_le h100 (Nat.pow_le_pow_right (by norm_num) (by norm_num))
    have hB54 : 54 ≤ bitlen (t * 3602879701896397).natAbs := by
      have h53n : (2 : ℕ) ^ 53 = 9007199254740992 := by norm_num
      have h53le : 2 ^ 53 ≤ (t * 3602879701896397).natAbs := by omega
      have := lt_bitlen (t * 3602879701896397).natAbs 53 (by omega) hPn1024 h53le
      omega
    have hB100 : bitlen (t * 3602879701896397).natAbs ≤ 100 := by
      apply bitlen_le _ 100 (by norm_num)
      have h100l : (2 : ℕ) ^ 100 = 1267650600228229401496703205376 := by norm_num
      omega
    have hnB : ¬ bitlen (t * 3602879701896397).natAbs ≤ 53 := by omega
    rw [round53_big _ hnB]
    obtain ⟨hPb1, hPb2⟩ := bitlen_spec (t * 3602879701896397).natAbs (by omega) hPn1024
    set B := bitlen (t * 3602879701896397).natAbs with hB
    set s : ℕ := B - 53 with hs
    have hs1 : 1 ≤ s := by omega
    have hs47 : s ≤ 47 := by omega
    have hspos : (0 : ℤ) < 2 ^ s := by positivity
    have hhpos : (0 : ℤ) < 2 ^ (s - 1) := by positivity
    have hss : (2 : ℤ) ^ s = 2 ^ (s - 1) * 2 := by
      rw [← pow_succ]
      congr 1
      omega
    have hPltB : t * 3602879701896397 < 9007199254740992 * 2 ^ s := by
      have h1 : t * 3602879701896397 < (2 : ℤ) ^ B := by
        calc t * 3602879701896397 = ((t * 3602879701896397).natAbs : ℤ) := hPn.symm
        _ < ((2 : ℕ) ^ B : ℤ) := by exact_mod_cast hPb2
        _ = (2 : ℤ) ^ B := by push_cast; ring
      calc t * 3602879701896397 < (2 : ℤ) ^ B := h1
      _ = 2 ^ 53 * 2 ^ s := by
          rw [← pow_add]
          congr 1
          omega
      _ = 9007199254740992 * 2 ^ s := by norm_num
    have hqr : 2 ^ s * (t * 3602879701896397 / 2 ^ s) + t * 3602879701896397 % 2 ^ s =
        t * 3602879701896397 := Int.ediv_add_emod _ _
    have hr0 : 0 ≤ t * 3602879701896397 % 2 ^ s := Int.emod_nonneg _ (by positivity)
    have hrlt : t * 3602879701896397 % 2 ^ s < 2 ^ s := Int.emod_lt_of_pos _ hspos
    have hn5 : 5 * (4 * t / 5) + 4 * t % 5 = 4 * t := by
      have h := Int.ediv_add_emod (4 * t) 5
      linarith
    have hr5a : 0 ≤ 4 * t % 5 := Int.emod_nonneg _ (by norm_num)
    have hr5b : 4 * t % 5 < 5 := Int.emod_lt_of_pos _ (by norm_num)
    have hnn : 0 ≤ 4 * t / 5 := Int.ediv_nonneg (by omega) (by norm_num)
    have hkey : 5 * (t * 3602879701896397) =
        (5 * (4 * t / 5) + 4 * t % 5) * 4503599627370496 + t := by
      rw [hn5]
      ring
    have hp52 : (2 : ℤ) ^ (52 - s) * 2 ^ s = 4503599627370496 := by
      rw [← pow_add]
      rw [show 52 - s + s = 52 by omega]
      norm_num
    have hp47 : (2 : ℤ) ^ s ≤ 140737488355328 := by
      calc (2 : ℤ) ^ s ≤ 2 ^ 47 := pow_le_pow_right₀ (by norm_num) hs47
      _ = 140737488355328 := by norm_num
    have hq2 : (t * 3602879701896397 / 2 ^ s) * 2 ^ s =
        t * 3602879701896397 - t * 3602879701896397 % 2 ^ s := by linarith [hqr]
    rw [pyTruncD]
    dsimp only
    rw [if_neg (by omega)]
    rw [show (-(-52 + ((B : ℤ) - 53))).toNat = 52 - s by omega]
    apply tdiv_eq_of_bracket _ _ _ hnn
    · rcases eq_or_lt_of_le hr5a with hr5z | hr5p
      · have hkey0 : 5 * (t * 3602879701896397) =
            5 * (4 * t / 5) * 4503599627370496 + t := by
          rw [← hr5z] at hkey
          linarith
        have hdelta : t =
            5 * (t * 3602879701896397 - (4 * t / 5) * 4503599627370496) := by linarith
        have hdpos : 0 ≤ t * 3602879701896397 - (4 * t / 5) * 4503599627370496 := by linarith
        have h54 : t * 3602879701896397 =
            (t * 3602879701896397 - (4 * t / 5) * 4503599627370496) * 18014398509481985 := by
          linarith
        have hdlt : t * 3602879701896397 - (4 * t / 5) * 4503599627370496 < 2 ^ (s - 1) := by
          linarith [hPltB, hdpos, hss, hhpos, h54]
        have hgrid : 2 ^ s * ((4 * t / 5) * 2 ^ (52 - s)) =
            (4 * t / 5) * 4503599627370496 := by
          calc 2 ^ s * ((4 * t / 5) * 2 ^ (52 - s)) =
              (4 * t / 5) * (2 ^ (52 - s) * 2 ^ s) := by ring
          _ = (4 * t / 5) * 4503599627370496 := by rw [hp52]
        have hql : t * 3602879701896397 / 2 ^ s = (4 * t / 5) * 2 ^ (52 - s) ∧
            t * 3602879701896397 % 2 ^ s =
              t * 3602879701896397 - (4 * t / 5) * 4503599627370496 := by
          rw [Int.ediv_emod_unique hspos]
          refine ⟨by linarith [hgrid], hdpos, ?_⟩
          calc t * 3602879701896397 - (4 * t / 5) * 4503599627370496 < 2 ^ (s - 1) := hdlt
          _ ≤ 2 ^ s := by linarith [hss, hhpos]
        rw [roundQ_down _ _ (by rw [hql.2]; exact hdlt), hql.1]
      · have hlow2 : (4 * t / 5) * 2 ^ (52 - s) * 2 ^ s ≤
            (t * 3602879701896397 / 2 ^ s) * 2 ^ s := by
          rw [hq2, mul_assoc, hp52]
          linarith [hkey, hrlt, hp47, hr5b, hr5p]
        have hlowdiv : (4 * t / 5) * 2 ^ (52 - s) ≤ t * 3602879701896397 / 2 ^ s :=
          le_of_mul_le_mul_right hlow2 hspos
        rcases roundQ_cases (t * 3602879701896397) s with hq | hq <;> rw [hq] <;>
          linarith [hlowdiv]
    · have hup : roundQ (t * 3602879701896397) s ≤ t * 3602879701896397 / 2 ^ s + 1 := by
        rcases roundQ_cases (t * 3602879701896397) s with hq | hq <;> rw [hq] <;> linarith
      have hupper2 : (t * 3602879701896397 / 2 ^ s + 1) * 2 ^ s <
          (4 * t / 5 + 1) * 2 ^ (52 - s) * 2 ^ s := by
        have hexpand : (t * 3602879701896397 / 2 ^ s + 1) * 2 ^ s =
            t * 3602879701896397 - t * 3602879701896397 % 2 ^ s + 2 ^ s := by
          rw [add_mul, one_mul, hq2]
        rw [hexpand, mul_assoc, hp52]
        linarith [hkey, hr0, hp47, hr5b, hb]
      have hlt : roundQ (t * 3602879701896397) s * 2 ^ s <
          (4 * t / 5 + 1) * 2 ^ (52 - s) * 2 ^ s :=
        lt_of_le_of_lt (mul_le_mul_of_nonneg_right hup hspos.le) hupper2
      exact lt_of_mul_lt_mul_right hlt hspos.le

/-- The floor of the exact real product `total * 0.8` is `(4 * total) / 5`. -/
theorem floor_four_fifths (t : ℤ) : ⌊(t : ℚ) * (4 / 5)⌋ = 4 * t / 5 := by
  have h : (t : ℚ) * (4 / 5) = ((4 * t : ℤ) : ℚ) / ((5 : ℕ) : ℚ) := by
    push_cast
    ring
  rw [h, Rat.floor_intCast_div_natCast]
  norm_num

theorem totSumPos_eq : ∀ files : List (String × FileData),
    (∀ p ∈ files, 0 ≤ p.2.total_lines) →
    totSumPos files = (files.map fun p => p.2.total_lines).sum
  | [], _ => rfl
  | p :: rest, h => by
    have h0 := h p (List.mem_cons_self _ _)
    have hrec := totSumPos_eq rest (fun q hq => h q (List.mem_cons_of_mem _ hq))
    rw [totSumPos] at hrec ⊢
    by_cases hpt : 0 < p.2.total_lines
    · rw [List.filter_cons_of_pos (by simpa using hpt)]
      simp only [List.map_cons, List.sum_cons]
      rw [hrec]
    · rw [List.filter_cons_of_neg (by simpa using hpt)]
      have hz : p.2.total_lines = 0 := by omega
      simp only [List.map_cons, List.sum_cons, hz]
      rw [hrec]
      ring

theorem covSumPos_eq : ∀ files : List (String × FileData),
    (∀ p ∈ files, 0 ≤ p.2.total_lines ∧ (p.2.total_lines = 0 → p.2.covered_lines = 0)) →
    covSumPos files = (files.map fun p => p.2.covered_lines).sum
  | [], _ => rfl
  | p :: rest, h => by
    obtain ⟨h0, h0z⟩ := h p (List.mem_cons_self _ _)
    have hrec := covSumPos_eq rest (fun q hq => h q (List.mem_cons_of_mem _ hq))
    rw [covSumPos] at hrec ⊢
    by_cases hpt : 0 < p.2.total_lines
    · rw [List.filter_cons_of_pos (by simpa using hpt)]
      simp only [List.map_cons, List.sum_cons]
      rw [hrec]
    · rw [List.filter_cons_of_neg (by simpa using hpt)]
      have hz : p.2.covered_lines = 0 := h0z (by omega)
      simp only [List.map_cons, List.sum_cons, hz]
      rw [hrec]
      ring

theorem splitComma_ne_nil : ∀ cs : List Char, splitComma cs ≠ []
  | [] => by simp [splitComma]
  | c :: rest => by
    simp only [splitComma]
    by_cases h : c = ',' <;> simp [h]

theorem psplitComma_ne_nil (s : String) : psplitComma s ≠ [] := by
  rw [psplitComma, ne_eq, List.map_eq_nil_iff]
  exact splitComma_ne_nil s.data

/-! Claim theorems. -/

/-- Claim C1, counterexample.  As frozen, the claim commits at an
`end_of_record` line whenever a current file is set and an `LF:` directive was
seen since the last `SF:` declaration.  In this run, `LF:10` is seen after
`SF:a` and no further `SF:` occurs, so at the second `end_of_record` the
claimed condition holds with the most recent counts `lf_count = 10`,
`lh_count = 99`; yet the code does not recommit (its `in_lf` flag was already
cleared by the first `end_of_record`), and `covered_lines` for `a` stays `0`,
not `99`. -/
theorem claim_c1_counterexample :
    processLines initState ["SF:a", "LF:10", "end_of_record", "LH:99"] =
      some ⟨[("a", ⟨[], 10, 0⟩)], some "a", false, 10, 99⟩ ∧
    processLine (⟨[("a", ⟨[], 10, 0⟩)], some "a", false, 10, 99⟩ : ParseState)
      "end_of_record" = some ⟨[("a", ⟨[], 10, 0⟩)], some "a", false, 10, 99⟩ ∧
    (lookupD FileData.dflt "a" [("a", (⟨[], 10, 0⟩ : FileData))]).covered_lines = 0 ∧
    (0 : ℤ) ≠ 99 :=
  ⟨by decide, by decide, by decide, by decide⟩

/-- Claim C1, amended: at an `end_of_record` line the parser commits
`totalLines`/`coveredLines` for the current file iff a current file is set
(nonempty) and the valid-section flag is up, where the flag is up exactly when
an `LF:` directive has been seen since the most recent `SF:` declaration **or
end-of-record marker** (both reset it); when the condition fails the dictionary
is unchanged (so a fresh file keeps the default zero counts), per-line `DA:`
details are always retained, and the flag is reset either way. -/
theorem claim_c1_amended (st : ParseState) (line : String)
    (h : startswith (pstrip line) "end_of_record" = true) :
    processLine st line = some { st with files := eorFiles st, in_lf := false } ∧
    ((∃ f, st.current_file = some f ∧ pyTruthy f = true ∧ st.in_lf = true) →
      ∀ f, st.current_file = some f →
        lookupD FileData.dflt f (eorFiles st) =
          commitTotals st.lf_count st.lh_count (lookupD FileData.dflt f st.files)) ∧
    (¬ (∃ f, st.current_file = some f ∧ pyTruthy f = true ∧ st.in_lf = true) →
      eorFiles st = st.files) ∧
    (∀ g, (lookupD FileData.dflt g (eorFiles st)).lines =
      (lookupD FileData.dflt g st.files).lines) ∧
    (∀ g, st.current_file ≠ some g →
      lookupD FileData.dflt g (eorFiles st) = lookupD FileData.dflt g st.files) ∧
    (∀ (ls : List String) (st₀ st₁ : ParseState), processLines st₀ ls = some st₁ →
      st₁.in_lf = ls.foldl flagStep st₀.in_lf) := by
  refine ⟨processLine_eor h, ?_, eorFiles_skip, ?_, ?_, processLines_flag⟩
  · rintro ⟨f₀, hc₀, ht₀, hl₀⟩ f hcf
    rw [hcf] at hc₀
    injection hc₀ with hc₀
    rw [← hc₀] at ht₀
    rw [eorFiles_commit hcf ht₀ hl₀, lookupD_modEntry_self]
  · intro g
    rcases Classical.em (∃ f, st.current_file = some f ∧ pyTruthy f = true ∧ st.in_lf = true)
      with hyes | hno
    · obtain ⟨f, hc, ht, hl⟩ := hyes
      rw [eorFiles_commit hc ht hl]
      by_cases hg : g = f
      · subst hg
        rw [lookupD_modEntry_self]
        rfl
      · rw [lookupD_modEntry_ne _ _ hg]
    · rw [eorFiles_skip hno]
  · intro g hg
    rcases Classical.em (∃ f, st.current_file = some f ∧ pyTruthy f = true ∧ st.in_lf = true)
      with hyes | hno
    · obtain ⟨f, hc, ht, hl⟩ := hyes
      rw [eorFiles_commit hc ht hl]
      have hgf : g ≠ f := by
        intro hgf
        rw [hgf] at hg
        exact hg hc
      rw [lookupD_modEntry_ne _ _ hgf]
    · rw [eorFiles_skip hno]

/-- Claim C1, witness for the amended theorem: a concrete commit. -/
theorem claim_c1_witness :
    processLine (⟨[], some "a", true, 10, 7⟩ : ParseState) "end_of_record" =
      some { (⟨[], some "a", true, 10, 7⟩ : ParseState) with
        files := eorFiles ⟨[], some "a", true, 10, 7⟩, in_lf := false } ∧
    lookupD FileData.dflt "a" (eorFiles ⟨[], some "a", true, 10, 7⟩) =
      commitTotals 10 7 (lookupD FileData.dflt "a" ([] : List (String × FileData))) := by
  obtain ⟨h1, h2, _⟩ := claim_c1_amended (⟨[], some "a", true, 10, 7⟩ : ParseState)
    "end_of_record" (by decide)
  exact ⟨h1, h2 ⟨"a", rfl, by decide, rfl⟩ "a" rfl⟩

/-- Claim C2: `coveragePercent` is `covered / total * 100` when `total > 0` and
`0` when `total = 0` (the guard avoids the division), and a file whose entry
has `total_lines = 0` never appears in the Part C prioritized list. -/
theorem claim_c2 (files : List (String × FileData)) (f : String) (d : FileData)
    (hnd : (files.map Prod.fst).Nodup) (hmem : (f, d) ∈ files) :
    (0 < d.total_lines →
      coveragePercent d = (d.covered_lines : ℚ) / (d.total_lines : ℚ) * 100) ∧
    (d.total_lines = 0 → coveragePercent d = 0 ∧ ∀ x ∈ partC files, x.1 ≠ f) := by
  constructor
  · intro h
    rw [coveragePercent, if_pos h]
  · intro h
    refine ⟨by rw [coveragePercent, if_neg (by omega)], ?_⟩
    intro x hx hxf
    have hx' : x ∈ (file_coverage files).insertionSort covRel := List.mem_of_mem_take hx
    rw [List.mem_insertionSort, file_coverage, List.mem_filterMap] at hx'
    obtain ⟨⟨p1, p2⟩, hp, hpe⟩ := hx'
    by_cases hpt : 0 < p2.total_lines
    · simp only [if_pos hpt] at hpe
      injection hpe with hpe
      rw [← hpe] at hxf
      simp only at hxf
      rw [hxf] at hp
      have hpd : p2 = d := mem_unique_of_nodup_keys hnd hp hmem
      rw [hpd] at hpt
      omega
    · simp only [if_neg hpt] at hpe
      exact Option.noConfusion hpe

/-- Claim C2, witness. -/
theorem claim_c2_witness :
    (0 < (0 : ℤ) → coveragePercent ⟨[], 0, 5⟩ = ((5 : ℤ) : ℚ) / ((0 : ℤ) : ℚ) * 100) ∧
    ((0 : ℤ) = 0 → coveragePercent ⟨[], 0, 5⟩ = 0 ∧
      ∀ x ∈ partC [("a", ⟨[], 0, 5⟩), ("b", ⟨[], 10, 5⟩)], x.1 ≠ "a") :=
  claim_c2 [("a", ⟨[], 0, 5⟩), ("b", ⟨[], 10, 5⟩)] "a" ⟨[], 0, 5⟩ (by decide)
    (by decide)

/-- Claim C3, counterexample.  The per-file and aggregate `needed` column is
computed as `int(total * 0.8) - covered` in double precision; at
`total = 2814749767106561` (with `covered = 0`) the binary64 product rounds up
across the next integer and the computed value exceeds the exact
`floor(total * 0.8)` by one. -/
theorem claim_c3_counterexample :
    needed_for_80 2814749767106561 0 = 2251799813685249 ∧
    ⌊((2814749767106561 : ℤ) : ℚ) * (4 / 5)⌋ - 0 = 2251799813685248 ∧
    (2251799813685249 : ℤ) ≠ 2251799813685248 := by
  refine ⟨by decide, ?_, by decide⟩
  rw [floor_four_fifths]
  decide

/-- Claim C3, amended: for non-negative `total` and `covered` with
`total < 2 ^ 48` (far beyond any real line count), the computed
`int(total * 0.8) - covered` equals the exact `floor(total * 0.8) - covered`;
for larger totals the double-precision computation can exceed the exact floor
by one. -/
theorem claim_c3_amended (total covered : ℤ) (h0 : 0 ≤ total) (hc : 0 ≤ covered)
    (hb : total < 2 ^ 48) :
    needed_for_80 total covered = ⌊(total : ℚ) * (4 / 5)⌋ - covered := by
  rw [needed_for_80, trunc_mul_c08 total h0 hb, floor_four_fifths]

/-- Claim C3, witness: `totalLines = 50`, `coveredLines = 10` yields `30`. -/
theorem claim_c3_witness : needed_for_80 50 10 = 30 := by
  rw [claim_c3_amended 50 10 (by norm_num) (by norm_num) (by norm_num), floor_four_fifths]
  decide

/-- Claim C4, counterexample.  The program accumulates the running totals over
all parsed files, including covered counts of files whose `total_lines` is 0;
the tracefile below (`LF:0` with `LH:5`) yields entries
`a ↦ (total 0, covered 5)` and `b ↦ (total 10, covered 5)`, the printed overall
coverage is `(5+5)/10*100 = 100`, while the sum restricted to files with
`total > 0` gives `5/10*100 = 50`. -/
theorem claim_c4_counterexample :
    parse_lcov ["SF:a", "LF:0", "LH:5", "end_of_record",
        "SF:b", "LF:10", "LH:5", "end_of_record"] =
      some [("a", ⟨[], 0, 5⟩), ("b", ⟨[], 10, 5⟩)] ∧
    overall_coverage [("a", ⟨[], 0, 5⟩), ("b", ⟨[], 10, 5⟩)] = 100 ∧
    (covSumPos [("a", ⟨[], 0, 5⟩), ("b", ⟨[], 10, 5⟩)] : ℚ) /
        (totSumPos [("a", ⟨[], 0, 5⟩), ("b", ⟨[], 10, 5⟩)] : ℚ) * 100 = 50 ∧
    (100 : ℚ) ≠ 50 := by
  refine ⟨by decide, ?_, ?_, by norm_num⟩
  · rw [overall_coverage,
      show total_lines_all [("a", ⟨[], 0, 5⟩), ("b", ⟨[], 10, 5⟩)] = 10 from by decide,
      show total_covered_all [("a", ⟨[], 0, 5⟩), ("b", ⟨[], 10, 5⟩)] = 10 from by decide]
    norm_num
  · rw [show covSumPos [("a", ⟨[], 0, 5⟩), ("b", ⟨[], 10, 5⟩)] = 5 from by decide,
      show totSumPos [("a", ⟨[], 0, 5⟩), ("b", ⟨[], 10, 5⟩)] = 10 from by decide]
    norm_num

/-- Claim C4, amended: when every parsed file has a non-negative total and a
zero covered count whenever its total is zero, the running totals the program
accumulates over all files agree with the sums restricted to files with
`total > 0`, and the printed overall coverage equals the restricted ratio. -/
theorem claim_c4_amended (files : List (String × FileData))
    (hnd : (files.map Prod.fst).Nodup)
    (hz : ∀ p ∈ files, 0 ≤ p.2.total_lines ∧ (p.2.total_lines = 0 → p.2.covered_lines = 0)) :
    total_lines_all files = totSumPos files ∧
    total_covered_all files = covSumPos files ∧
    overall_coverage files =
      (if 0 < totSumPos files then (covSumPos files : ℚ) / (totSumPos files : ℚ) * 100
       else 0) := by
  have h1 : total_lines_all files = totSumPos files := by
    rw [total_lines_all_eq files hnd, totSumPos_eq files (fun p hp => (hz p hp).1)]
  have h2 : total_covered_all files = covSumPos files := by
    rw [total_covered_all_eq files hnd, covSumPos_eq files hz]
  exact ⟨h1, h2, by rw [overall_coverage, h1, h2]⟩

/-- Claim C4, witness. -/
theorem claim_c4_witness :
    total_lines_all [("a", ⟨[], 50, 10⟩)] = totSumPos [("a", ⟨[], 50, 10⟩)] ∧
    total_covered_all [("a", ⟨[], 50, 10⟩)] = covSumPos [("a", ⟨[], 50, 10⟩)] ∧
    overall_coverage [("a", ⟨[], 50, 10⟩)] =
      (if 0 < totSumPos [("a", ⟨[], 50, 10⟩)] then
        (covSumPos [("a", ⟨[], 50, 10⟩)] : ℚ) / (totSumPos [("a", ⟨[], 50, 10⟩)] : ℚ) * 100
       else 0) :=
  claim_c4_amended [("a", ⟨[], 50, 10⟩)] (by decide) (by decide)

/-- Claim C5: Part C filters to files with `total > 0`, stable-sorts them
ascending by the coverage fraction (equivalently by `coveragePercent`, which is
the fraction times 100), prints at most 5 entries carrying the coverage and
the uncovered count `total - covered`, ties keeping insertion order; files
A(20%), B(90%), C(60%) come out in the order [A, C, B]. -/
theorem claim_c5 (files : List (String × FileData)) :
    (partC files).length ≤ 5 ∧
    (partC files).Pairwise covRel ∧
    (∀ x ∈ partC files, ∃ d : FileData, (x.1, d) ∈ files ∧ 0 < d.total_lines ∧
      x.2.1 = (d.covered_lines : ℚ) / (d.total_lines : ℚ) ∧
      x.2.2 = d.total_lines - d.covered_lines) ∧
    (∀ a b : String × ℚ × Int, List.Sublist [a, b] (file_coverage files) → a.2.1 = b.2.1 →
      List.Sublist [a, b] ((file_coverage files).insertionSort covRel)) ∧
    partC [("A", ⟨[], 50, 10⟩), ("B", ⟨[], 100, 90⟩), ("C", ⟨[], 10, 6⟩)] =
      [("A", (1 : ℚ) / 5, 40), ("C", (3 : ℚ) / 5, 4), ("B", (9 : ℚ) / 10, 10)] := by
  refine ⟨?_, ?_, ?_, ?_, ?_⟩
  · exact List.length_take_le 5 _
  · exact List.Pairwise.sublist (List.take_sublist 5 _) (List.sorted_insertionSort covRel _)
  · intro x hx
    have hx' : x ∈ (file_coverage files).insertionSort covRel := List.mem_of_mem_take hx
    rw [List.mem_insertionSort, file_coverage, List.mem_filterMap] at hx'
    obtain ⟨⟨p1, p2⟩, hp, hpe⟩ := hx'
    by_cases hpt : 0 < p2.total_lines
    · simp only [if_pos hpt] at hpe
      injection hpe with hpe
      rw [← hpe]
      exact ⟨p2, hp, hpt, rfl, rfl⟩
    · simp only [if_neg hpt] at hpe
      exact Option.noConfusion hpe
  · intro a b hsub heq
    exact List.pair_sublist_insertionSort (le_of_eq heq) hsub
  · norm_num [partC, file_coverage, covRel, List.insertionSort, List.orderedInsert]

/-- Claim C5, witness: two files tied at 20% coverage keep insertion order. -/
theorem claim_c5_witness :
    (partC [("a", ⟨[], 10, 2⟩), ("b", ⟨[], 10, 2⟩)]).Pairwise covRel ∧
    List.Sublist [("a", (2 : ℚ) / 10, 8), ("b", (2 : ℚ) / 10, 8)]
      ((file_coverage [("a", ⟨[], 10, 2⟩), ("b", ⟨[], 10, 2⟩)]).insertionSort covRel) := by
  refine ⟨(claim_c5 _).2.1, ?_⟩
  apply (claim_c5 [("a", ⟨[], 10, 2⟩), ("b", ⟨[], 10, 2⟩)]).2.2.2.1
  · rw [show file_coverage [("a", ⟨[], 10, 2⟩), ("b", ⟨[], 10, 2⟩)] =
      [("a", (2 : ℚ) / 10, 8), ("b", (2 : ℚ) / 10, 8)] from by
        norm_num [file_coverage, List.filterMap_cons]]
  · rfl

/-- Claim C6, counterexample.  The claim asserts that every recognized
directive line carrying a non-integer field aborts the run; but a `DA:` line is
only parsed when a current file is set and truthy, so a malformed `DA:` line
before any `SF:` declaration is skipped silently and the run succeeds. -/
theorem claim_c6_counterexample :
    parse_lcov ["DA:foo,1"] = some [] ∧
    startswith (pstrip "DA:foo,1") "DA:" = true ∧
    pyInt "foo" = none :=
  ⟨by decide, by decide, by decide⟩

/-- Claim C6, amended: a non-integer field in a field the parser actually
reads is fatal and unrecovered: the `LF:`/`LH:` value always, and for `DA:`
lines — parsed only when a current file is set and nonempty — the first
comma-separated field, and the second when present. -/
theorem claim_c6_amended (st : ParseState) (line : String) :
    (startswith (pstrip line) "LF:" = true → pyInt (pdrop (pstrip line) 3) = none →
      processLine st line = none) ∧
    (startswith (pstrip line) "LH:" = true → pyInt (pdrop (pstrip line) 3) = none →
      processLine st line = none) ∧
    (startswith (pstrip line) "DA:" = true →
      (∃ f, st.current_file = some f ∧ pyTruthy f = true) →
      ∀ p0 rest, psplitComma (pdrop (pstrip line) 3) = p0 :: rest →
        (pyInt p0 = none ∨ ∃ p1 r2, rest = p1 :: r2 ∧ pyInt p1 = none) →
        processLine st line = none) := by
  refine ⟨?_, ?_, ?_⟩
  · intro h hp
    rw [processLine_lf h, hp]
  · intro h hp
    rw [processLine_lh h, hp]
  · rintro h ⟨f, hc, ht⟩ p0 rest hsp hbad
    rw [processLine_da h]
    obtain ⟨fls, cf, ilf, lfc, lhc⟩ := st
    simp only at hc
    subst hc
    simp only [daLine]
    rw [if_pos ht]
    rcases hbad with hb0 | ⟨p1, r2, hrest, hb1⟩
    · simp only [hsp, hb0]
    · subst hrest
      rcases hp0 : pyInt p0 with _ | v
      · simp only [hsp, hp0]
      · simp only [hsp, hp0, hb1]

/-- Claim C6, witness for the amended theorem. -/
theorem claim_c6_witness : processLine initState "LF:xy" = none :=
  (claim_c6_amended initState "LF:xy").1 (by decide) (by decide)

/-- Claim C7: the whole tracefile is parsed to completion before any output is
produced, so a missing input file or any parse failure yields no output at all
(no partial report), while a successful parse yields the full report. -/
theorem claim_c7 :
    mainRun none = none ∧
    (∀ ls, parse_lcov ls = none → mainRun (some ls) = none) ∧
    (∀ ls files, parse_lcov ls = some files → mainRun (some ls) = some (buildReport files)) := by
  refine ⟨rfl, ?_, ?_⟩
  · intro ls h
    show (parse_lcov ls).map buildReport = none
    rw [h]
    rfl
  · intro ls files h
    show (parse_lcov ls).map buildReport = some (buildReport files)
    rw [h]
    rfl

/-- Claim C7, witness: a parse failure produces no output. -/
theorem claim_c7_witness : mainRun (some ["SF:a", "LF:xy"]) = none :=
  claim_c7.2.1 ["SF:a", "LF:xy"] (by decide)

/-- Claim C8, counterexample.  The printed `Lines Needed` is
`max(0, int(total * 0.8) - covered)` in double precision; parsing a tracefile
with aggregate total `5629499534213121` (covered 0) prints `4503599627370497`,
which is not `max(0, floor(total * 0.8) - covered) = 4503599627370496`. -/
theorem claim_c8_counterexample :
    parse_lcov ["SF:a", "LF:5629499534213121", "LH:0", "end_of_record"] =
      some [("a", ⟨[], 5629499534213121, 0⟩)] ∧
    lines_needed_displayed [("a", ⟨[], 5629499534213121, 0⟩)] = 4503599627370497 ∧
    max 0 (⌊((5629499534213121 : ℤ) : ℚ) * (4 / 5)⌋ - 0) = 4503599627370496 ∧
    (4503599627370497 : ℤ) ≠ 4503599627370496 := by
  refine ⟨by decide, by decide, ?_, by decide⟩
  rw [floor_four_fifths]
  decide

/-- Claim C8, amended: for collections whose aggregate total is non-negative
and below `2 ^ 48`, the printed `Lines Needed` equals
`max(0, floor(totalLines_all * 0.8) - coveredLines_all)`; outside this range
the double-precision `int(total * 0.8)` can deviate from the exact floor
(and for negative totals `int` truncates toward zero rather than flooring). -/
theorem claim_c8_amended (files : List (String × FileData))
    (h0 : 0 ≤ total_lines_all files) (hb : total_lines_all files < 2 ^ 48) :
    lines_needed_displayed files =
      max 0 (⌊(total_lines_all files : ℚ) * (4 / 5)⌋ - total_covered_all files) := by
  rw [lines_needed_displayed, overall_needed, needed_for_80, trunc_mul_c08 _ h0 hb,
    floor_four_fifths]

/-- Claim C8, witness. -/
theorem claim_c8_witness :
    lines_needed_displayed [("a", ⟨[], 50, 10⟩)] =
      max 0 (⌊(total_lines_all [("a", ⟨[], 50, 10⟩)] : ℚ) * (4 / 5)⌋ -
        total_covered_all [("a", ⟨[], 50, 10⟩)]) :=
  claim_c8_amended [("a", ⟨[], 50, 10⟩)] (by decide) (by decide)

/-- Claim C9: an `SF:` declaration does not reset `lf_count`/`lh_count`; a
record that contains an `LF:` directive but no `LH:` before its
`end_of_record` commits as `coveredLines` the `lh_count` value left over from
before the record (0 at the start of the file). -/
theorem claim_c9 (st : ParseState) (sfLine : String) (body : List String) (eLine : String)
    (st' : ParseState)
    (hsf : startswith (pstrip sfLine) "SF:" = true)
    (he : startswith (pstrip eLine) "end_of_record" = true)
    (hbody : ∀ l ∈ body, startswith (pstrip l) "SF:" = false ∧
      startswith (pstrip l) "LH:" = false ∧ startswith (pstrip l) "end_of_record" = false)
    (hlf : ∃ l ∈ body, startswith (pstrip l) "LF:" = true)
    (hne : pyTruthy (pdrop (pstrip sfLine) 3) = true)
    (hrun : processLines st (sfLine :: (body ++ [eLine])) = some st') :
    (lookupD FileData.dflt (pdrop (pstrip sfLine) 3) st'.files).covered_lines = st.lh_count ∧
    st'.lh_count = st.lh_count ∧
    (∀ (su : ParseState) (lu : String), startswith (pstrip lu) "SF:" = true →
      ∃ su', processLine su lu = some su' ∧ su'.current_file = some (pdrop (pstrip lu) 3) ∧
        su'.in_lf = false ∧ su'.lf_count = su.lf_count ∧ su'.lh_count = su.lh_count) := by
  rw [processLines_cons, processLine_sf hsf, Option.some_bind, processLines_append] at hrun
  rcases hmid : processLines
      { st with current_file := some (pdrop (pstrip sfLine) 3), in_lf := false } body
    with _ | st₂ <;> rw [hmid] at hrun
  · exact Option.noConfusion hrun
  · rw [Option.some_bind, processLines_cons, processLine_eor he, Option.some_bind,
      processLines_nil] at hrun
    injection hrun with hrun
    obtain ⟨hb1, hb2, hb3⟩ := processLines_body body _ st₂ hmid hbody
    have hcf₂ : st₂.current_file = some (pdrop (pstrip sfLine) 3) := by rw [hb1]
    have hlh₂ : st₂.lh_count = st.lh_count := by rw [hb2]
    have hlf₂ : st₂.in_lf = true := by
      rw [hb3]
      have hany : body.any (fun l => startswith (pstrip l) "LF:") = true := by
        rw [List.any_eq_true]
        obtain ⟨l, hl, hl'⟩ := hlf
        exact ⟨l, hl, hl'⟩
      rw [hany]
      simp
    rw [← hrun]
    refine ⟨?_, hlh₂, fun su lu hu => ⟨_, processLine_sf hu, rfl, rfl, rfl, rfl⟩⟩
    show (lookupD FileData.dflt (pdrop (pstrip sfLine) 3) (eorFiles st₂)).covered_lines =
      st.lh_count
    rw [eorFiles_commit hcf₂ hne hlf₂, lookupD_modEntry_self]
    exact hlh₂

/-- Claim C9, witness: record `b` has `LF:5` but no `LH:`, and inherits the
covered count 7 committed while parsing the earlier record `a`. -/
theorem claim_c9_witness :
    (lookupD FileData.dflt (pdrop (pstrip "SF:b") 3)
      ((⟨[("a", ⟨[], 10, 7⟩), ("b", ⟨[], 5, 7⟩)], some "b", false, 5, 7⟩ :
        ParseState)).files).covered_lines = 7 := by
  have h := claim_c9 (⟨[("a", ⟨[], 10, 7⟩)], some "a", false, 10, 7⟩ : ParseState)
    "SF:b" ["LF:5"] "end_of_record"
    (⟨[("a", ⟨[], 10, 7⟩), ("b", ⟨[], 5, 7⟩)], some "b", false, 5, 7⟩ : ParseState)
    (by decide) (by decide) (by decide) (by decide) (by decide) (by decide)
  exact h.1

/-- Claim C10: a path occurring in several `SF:` records has one dictionary
entry (keys are unique in every parse result); a commit overwrites the stored
totals with the committing record values; a `DA:` line updates the shared
per-line map, overwriting the hit count of an already-present line number and
leaving other entries alone. -/
theorem claim_c10 :
    (∀ (input : List String) (files : List (String × FileData)),
      parse_lcov input = some files → (files.map Prod.fst).Nodup) ∧
    (∀ (st : ParseState) (f line : String) (st' : ParseState),
      st.current_file = some f → pyTruthy f = true → st.in_lf = true →
      startswith (pstrip line) "end_of_record" = true → processLine st line = some st' →
      lookupD FileData.dflt f st'.files =
        { lookupD FileData.dflt f st.files with
            total_lines := st.lf_count, covered_lines := st.lh_count }) ∧
    (∀ (st : ParseState) (f line : String) (st' : ParseState),
      st.current_file = some f → pyTruthy f = true →
      startswith (pstrip line) "DA:" = true → processLine st line = some st' →
      ∃ p0 rest line_num hit_count,
        psplitComma (pdrop (pstrip line) 3) = p0 :: rest ∧ pyInt p0 = some line_num ∧
        ((rest = [] ∧ hit_count = 0) ∨ ∃ p1 r2, rest = p1 :: r2 ∧ pyInt p1 = some hit_count) ∧
        lookupD FileData.dflt f st'.files =
          { lookupD FileData.dflt f st.files with
              lines := updInsert line_num hit_count (lookupD FileData.dflt f st.files).lines } ∧
        (∀ g, g ≠ f → lookupD FileData.dflt g st'.files = lookupD FileData.dflt g st.files)) ∧
    (∀ (l : List (Int × Int)) (k v : Int), lookupD 0 k (updInsert k v l) = v ∧
      ∀ k', k' ≠ k → lookupD 0 k' (updInsert k v l) = lookupD 0 k' l) := by
  refine ⟨fun input files h => parse_lcov_nodup_keys h, ?_, ?_, ?_⟩
  · intro st f line st' hc ht hl he hstep
    rw [processLine_eor he] at hstep
    injection hstep with hstep
    rw [← hstep]
    show lookupD FileData.dflt f (eorFiles st) = _
    rw [eorFiles_commit hc ht hl, lookupD_modEntry_self]
    rfl
  · intro st f line st' hc ht hda hstep
    rw [processLine_da hda] at hstep
    rcases daLine_files hc ht hstep with
      ⟨p0, rest, ln, hit, hsp, hp0, halt, hfiles⟩ | ⟨hnil, _⟩
    · refine ⟨p0, rest, ln, hit, hsp, hp0, halt, ?_, ?_⟩
      · rw [hfiles, lookupD_modEntry_self]
      · intro g hg
        rw [hfiles, lookupD_modEntry_ne _ _ hg]
    · exact absurd hnil (psplitComma_ne_nil _)
  · intro l k v
    exact ⟨lookupD_updInsert_self 0 k v l, fun k' hk' => lookupD_updInsert_ne 0 v hk' l⟩

/-- Claim C10, witness: a duplicated `SF:a` tracefile parses to a single entry
whose totals come from the second record and whose line map is the overwriting
union of both records. -/
theorem claim_c10_witness :
    ([("a", (⟨[(1, 1), (2, 5), (3, 1)], 20, 9⟩ : FileData))].map Prod.fst).Nodup ∧
    lookupD 0 (2 : ℤ) (updInsert 2 (5 : ℤ) [(1, 1), (2, 0)]) = 5 := by
  refine ⟨?_, ?_⟩
  · exact claim_c10.1 ["SF:a", "DA:1,1", "DA:2,0", "LF:10", "LH:2", "end_of_record",
      "SF:a", "DA:2,5", "DA:3,1", "LF:20", "LH:9", "end_of_record"]
      [("a", ⟨[(1, 1), (2, 5), (3, 1)], 20, 9⟩)] (by decide)
  · exact (claim_c10.2.2.2 [(1, 1), (2, 0)] 2 5).1

end AnalyzeCoverage
